import Mathlib

/-!
Verification of the LingoSub batch-translation core.

Shallow embedding of:
- `app/services/translation_service.py` (`TranslationService.translate_batch`,
  `_get_numbered_text_map`, `_translate_single_text`, `_fallback_to_single_items`),
- `app/services/rate_limiter.py` (`RateLimiter.acquire`),
- `app/services/translator.py` (the token-budget batching driver in `translate_file`).

Python strings are modelled as `List Char`; `str.strip` is modelled over the
ASCII whitespace characters recognised by `Char.isWhitespace` (a faithful
subset of Python's whitespace set for the characters that occur here), and the
regex `\d` is modelled by ASCII `Char.isDigit`.  The LLM and the shared Redis
counter are modelled as oracles supplied per theorem.
-/

namespace LingoSub

/-- Python `str` modelled as a list of characters. -/
abbrev PyStr := List Char

/-- Python `str.lstrip` (no argument): drop leading whitespace. -/
def pyStripStart (s : PyStr) : PyStr := s.dropWhile Char.isWhitespace

/-- Python `str.rstrip` (no argument): drop trailing whitespace. -/
def pyStripEnd : PyStr → PyStr
  | [] => []
  | c :: s =>
    match pyStripEnd s with
    | [] => if c.isWhitespace then [] else [c]
    | d :: r => c :: d :: r

/-- Python `str.strip` (no argument). -/
def pyStrip (s : PyStr) : PyStr := pyStripEnd (pyStripStart s)

/-- Python `text.split(sep)` for a one-character separator, as used with
`.split(chr 10)` in `_get_numbered_text_map`.  Like Python, splitting the
empty string yields `[""]` and empty fields are kept. -/
def splitLines : PyStr → List PyStr
  | [] => [[]]
  | c :: s =>
    if c = '\n' then [] :: splitLines s
    else
      match splitLines s with
      | [] => [[c]]
      | l :: ls => (c :: l) :: ls

/-- Python `sep.join(lines)` for the one-character separator used by
`translate_batch` when building the numbered list. -/
def joinLines : List PyStr → PyStr
  | [] => []
  | [l] => l
  | l :: l2 :: ls => l ++ '\n' :: joinLines (l2 :: ls)

/-- The character for a decimal digit value, as produced by Python `str(n)`. -/
def digitChar (d : Nat) : Char := Char.ofNat (48 + d)

/-- Numeric value of a decimal digit character, as consumed by Python `int`. -/
def digitVal (c : Char) : Nat := c.toNat - 48

/-- Python `int(ds)` on a string of decimal digits. -/
def digitsToNat (ds : PyStr) : Nat := ds.foldl (fun n c => 10 * n + digitVal c) 0

/-- Fuel-driven core of the decimal rendering `str(n)`. -/
def natToDigitsCore : Nat → Nat → PyStr
  | 0, _ => []
  | fuel + 1, n =>
    if n < 10 then [digitChar n]
    else natToDigitsCore fuel (n / 10) ++ [digitChar (n % 10)]

/-- Python `str(n)` for a natural number. -/
def natToDigits (n : Nat) : PyStr := natToDigitsCore (n + 1) n

/-- One line of `_get_numbered_text_map`: Python
`re.match(r'^(\d+)\.\s*(.*)', line.strip())`, returning the parsed 1-based
index (`int(group(1))`) and `group(2).strip()` when the regex matches. -/
def parseNumberedLine (line : PyStr) : Option (Nat × PyStr) :=
  let s := pyStrip line
  let ds := s.takeWhile Char.isDigit
  let rest := s.dropWhile Char.isDigit
  if ds.isEmpty then none
  else
    match rest with
    | '.' :: rest2 =>
      some (digitsToNat ds, pyStrip (rest2.dropWhile Char.isWhitespace))
    | _ => none

/-- Python dict assignment `result_map[index] = content`: insertion order is
kept, an existing key has its value replaced in place. -/
def insertEntry (m : List (Nat × PyStr)) (k : Nat) (v : PyStr) : List (Nat × PyStr) :=
  if m.any (fun p => p.1 = k) then
    m.map (fun p => if p.1 = k then (k, v) else p)
  else m ++ [(k, v)]

/-- The loop body of `_get_numbered_text_map`: add one line's parse to the
map being built. -/
def foldLine (m : List (Nat × PyStr)) (line : PyStr) : List (Nat × PyStr) :=
  match parseNumberedLine line with
  | some kv => insertEntry m kv.1 kv.2
  | none => m

/-- `TranslationService._get_numbered_text_map`: split the stripped response
into lines and collect every line matching `^(\d+)\.\s*(.*)` into a map. -/
def getNumberedTextMap (text : PyStr) : List (Nat × PyStr) :=
  (splitLines (pyStrip text)).foldl foldLine []

/-- Apply `f` to the last element of a list (a proof-side helper used to
describe what `str.strip` does to a joined block of lines). -/
def mapLast (f : PyStr → PyStr) : List PyStr → List PyStr
  | [] => []
  | [l] => [f l]
  | l :: l2 :: ls => l :: mapLast f (l2 :: ls)

/-- A translation unit as produced by `SRTProcessor.batch_for_translation`:
the dict `{"original_index": ..., "sub_index": ..., "text": ...}`.
`item.copy()` with `'text'` reassigned is `{it with text := ...}`. -/
structure Item where
  original_index : Int
  sub_index : Nat
  text : PyStr
  deriving DecidableEq, Repr

instance : Inhabited Item := ⟨⟨0, 0, []⟩⟩

/-- The identifying keys of a unit: every key of the dict except `'text'`. -/
def ident (it : Item) : Int × Nat := (it.original_index, it.sub_index)

/-- Python `enumerate` starting at `n`. -/
def pyEnumerate (n : Nat) : List α → List (Nat × α)
  | [] => []
  | a :: l => (n, a) :: pyEnumerate (n + 1) l

/-- One encoded line `f"{i+1}. {item['text']}"` of the numbered-list prompt. -/
def encodeLine (pos : Nat) (text : PyStr) : PyStr :=
  natToDigits pos ++ '.' :: ' ' :: text

/-- The numbered-list payload built by `translate_batch`:
`"\n".join(f"{i+1}. {item['text']}" for i, item in enumerate(batch))`. -/
def encodeBatch (batch : List Item) : PyStr :=
  joinLines ((pyEnumerate 0 batch).map (fun p => encodeLine (p.1 + 1) p.2.text))

/-- The LLM oracle.  `batchResp n` is the outcome of the `n`-th batch attempt
made during a call tree (`.error ()` models any exception raised inside the
attempt's `try` block, `.ok raw` the response content); `singleResp t` is the
outcome of `_translate_single_text` on input text `t`. -/
structure Env where
  batchResp : Nat → Except Unit PyStr
  singleResp : PyStr → Except Unit PyStr

/-- `TranslationService._translate_single_text`: one single-line call whose
response content is stripped; any exception propagates to the caller. -/
def translateSingleText (env : Env) (text : PyStr) : Except Unit PyStr :=
  match env.singleResp text with
  | .ok s => .ok (pyStrip s)
  | .error e => .error e

/-- The tagged placeholder `f"[Translation Error: {text}]"`. -/
def errorPlaceholder (text : PyStr) : PyStr :=
  "[Translation Error: ".toList ++ text ++ "]".toList

/-- The sentinel used on the success path for an absent position. -/
def missingMarker : PyStr := "[Translation Missing]".toList

/-- `TranslationService._fallback_to_single_items`: translate each unit
individually in order; a per-unit exception becomes the tagged placeholder. -/
def fallbackToSingleItems (env : Env) (batch : List Item) : List Item :=
  batch.map (fun item =>
    match translateSingleText env item.text with
    | .ok t => { item with text := t }
    | .error _ => { item with text := errorPlaceholder item.text })

/-- The body of one successful batch attempt of `translate_batch` after the
response `raw` was received: decode it, and either reconstruct (map size
matches) or surgically repair (map size mismatches). -/
def resolveAttempt (env : Env) (batch : List Item) (raw : PyStr) : List Item :=
  let m := getNumberedTextMap (pyStrip raw)
  if m.length = batch.length then
    (pyEnumerate 0 batch).map (fun p =>
      { p.2 with text := ((m.lookup (p.1 + 1)).getD missingMarker) })
  else
    (pyEnumerate 0 batch).map (fun p =>
      match m.lookup (p.1 + 1) with
      | some t => { p.2 with text := t }
      | none =>
        match translateSingleText env p.2.text with
        | .ok t => { p.2 with text := t }
        | .error _ => { p.2 with text := errorPlaceholder p.2.text })

/-- The `while attempt < max_retries` loop of `translate_batch`: each
iteration makes one batch attempt; an exception consumes the attempt and the
loop continues, any received response is resolved and returned at once.
The second result component is the attempt counter after the loop. -/
def attemptLoop (env : Env) (batch : List Item) : Nat → Nat → Option (List Item) × Nat
  | 0, ctr => (none, ctr)
  | fuel + 1, ctr =>
    match env.batchResp ctr with
    | .error _ => attemptLoop env batch fuel (ctr + 1)
    | .ok raw => (some (resolveAttempt env batch raw), ctr + 1)

/-- `MIN_BATCH_SIZE_FOR_RECURSION = 5`. -/
def MIN_BATCH_SIZE_FOR_RECURSION : Nat := 5

/-- `TranslationService.translate_batch`.  `ctr` threads the global index of
the next batch attempt through the call tree, so that the oracle can answer
each attempt differently; the recursive calls use the Python default
`max_retries = 2` exactly as the source does. -/
def translateBatch (env : Env) (batch : List Item) (maxRetries : Nat) (ctr : Nat) :
    List Item × Nat :=
  if h0 : batch.length = 0 then ([], ctr)
  else if h5 : batch.length < MIN_BATCH_SIZE_FOR_RECURSION then
    (fallbackToSingleItems env batch, ctr)
  else
    match attemptLoop env batch maxRetries ctr with
    | (some r, c1) => (r, c1)
    | (none, c1) =>
      let mid := batch.length / 2
      let first := translateBatch env (List.take mid batch) 2 c1
      let second := translateBatch env (List.drop mid batch) 2 first.2
      (first.1 ++ second.1, second.2)
termination_by batch.length
decreasing_by
  · simp only [List.length_take]
    simp only [MIN_BATCH_SIZE_FOR_RECURSION] at h5
    omega
  · simp only [List.length_drop]
    simp only [MIN_BATCH_SIZE_FOR_RECURSION] at h5
    omega

/-!  `RateLimiter.acquire` (`app/services/rate_limiter.py`).

Time is modelled as a rational, the shared Redis counter as an oracle
`counts : ℤ → ℕ` giving the post-increment value this caller observes when it
increments in a given window (other concurrent callers are absorbed into the
oracle).  The Python loop is `while True`; the model adds fuel, so a return
is always an explicit success. -/

/-- `int(time.time() // period)`: the fixed-window id. -/
def windowId (now period : ℚ) : ℤ := ⌊now / period⌋

/-- Python float `now % period` (`now - period * (now // period)`). -/
def winMod (now period : ℚ) : ℚ := now - period * ⌊now / period⌋

/-- The `while True` loop of `RateLimiter.acquire`: compute the window id,
atomically increment (observing `counts w`), return on `count <= limit`,
otherwise sleep `period - now % period` seconds and re-evaluate. Returns the
window in which the permit was acquired. -/
def acquireFrom (counts : ℤ → ℕ) (limit : ℕ) (period : ℚ) : ℚ → ℕ → Option ℤ
  | _, 0 => none
  | now, fuel + 1 =>
    let w := windowId now period
    if counts w ≤ limit then some w
    else acquireFrom counts limit period (now + (period - winMod now period)) fuel

/-!  The token-budget batching driver of `translate_file`
(`app/services/translator.py`).  The per-batch translator `_translate_batch`
is abstracted as an oracle `tr`; in the source it always returns a list of
the same length as its input (either the split fragments after a count check
or, on any error, the original texts). -/

/-- `TOKENS_PER_CHAR = 0.5`. -/
def TOKENS_PER_CHAR : ℚ := 1 / 2

/-- `MAX_TOKENS_PER_BATCH = 3000`. -/
def MAX_TOKENS_PER_BATCH : ℚ := 3000

/-- The batching loop of `translate_file`, accumulating translated texts:
`acc` is `translated_texts`, `cur` is `current_batch`, `cnt` is
`current_token_count`; the final pending batch is flushed when non-empty. -/
def runBatches (tr : List PyStr → List PyStr) (acc cur : List PyStr) (cnt : ℚ) :
    List PyStr → List PyStr
  | [] => if cur.isEmpty then acc else acc ++ tr cur
  | t :: rest =>
    let tc : ℚ := (t.length : ℚ) * TOKENS_PER_CHAR
    if cnt + tc > MAX_TOKENS_PER_BATCH then
      runBatches tr (acc ++ tr cur) [t] tc rest
    else
      runBatches tr acc (cur ++ [t]) (cnt + tc) rest

/-- The same loop viewed as pure chunking: the sequence of batches handed to
`_translate_batch`, in order. -/
def chunkLoop (cur : List PyStr) (cnt : ℚ) : List PyStr → List (List PyStr)
  | [] => if cur.isEmpty then [] else [cur]
  | t :: rest =>
    let tc : ℚ := (t.length : ℚ) * TOKENS_PER_CHAR
    if cnt + tc > MAX_TOKENS_PER_BATCH then
      cur :: chunkLoop [t] tc rest
    else
      chunkLoop (cur ++ [t]) (cnt + tc) rest

/-- `translate_file`'s translation phase: run the batching loop over all
texts and then perform the defensive count re-check
(`if len(translated_texts) != total_texts: raise ValueError(...)`); the `.ok`
value is what is handed to the SRT serializer. -/
def translateFileTexts (tr : List PyStr → List PyStr) (texts : List PyStr) :
    Except Unit (List PyStr) :=
  let out := runBatches tr [] [] 0 texts
  if out.length ≠ texts.length then .error () else .ok out

/-!  Concrete fixtures used by the witness theorems. -/

/-- A sample unit. -/
def mkItem (k : Nat) : Item := ⟨(k : Int), 0, "hello".toList⟩

/-- A concrete batch of three units (below the recursion threshold). -/
def batch3 : List Item := [mkItem 1, mkItem 2, mkItem 3]

/-- A concrete batch of five units. -/
def batch5 : List Item := [mkItem 1, mkItem 2, mkItem 3, mkItem 4, mkItem 5]

/-- A concrete batch of eight units. -/
def batch8 : List Item :=
  [mkItem 1, mkItem 2, mkItem 3, mkItem 4, mkItem 5, mkItem 6, mkItem 7, mkItem 8]

/-- A well-formed five-line numbered response. -/
def rawGood : PyStr := "1. a\n2. b\n3. c\n4. d\n5. e".toList

/-- A numbered response missing position 3 (four lines for a batch of 5). -/
def rawBad : PyStr := "1. a\n2. b\n4. d\n5. e".toList

/-- Oracle: every batch attempt succeeds with `rawGood`, every single-line
call echoes its input. -/
def envGood : Env := ⟨fun _ => .ok rawGood, fun t => .ok t⟩

/-- Oracle: every batch attempt succeeds with `rawBad`, every single-line
call echoes its input. -/
def envBad : Env := ⟨fun _ => .ok rawBad, fun t => .ok t⟩

/-- Oracle: every batch attempt raises, every single-line call raises. -/
def envFail : Env := ⟨fun _ => .error (), fun _ => .error ()⟩

/-- Oracle: every batch attempt raises, every single-line call echoes. -/
def envSplit : Env := ⟨fun _ => .error (), fun t => .ok t⟩

/-- A concrete shared-counter oracle: the first two windows are over quota,
the third admits. -/
def countsW : ℤ → ℕ := fun w => if w < 2 then 2 else 1

/-- Concrete document texts for the driver witness. -/
def textsW : List PyStr := ["ab".toList, "cd".toList, "ef".toList]

/-- A batch whose single text embeds a newline (breaking the codec
round-trip). -/
def newlineBatch : List Item := [⟨1, 0, "a\nb".toList⟩]

/-! ## Basic list helpers -/

theorem pyEnumerate_length (l : List α) (k : Nat) : (pyEnumerate k l).length = l.length := by
  induction l generalizing k with
  | nil => simp [pyEnumerate]
  | cons a l ih => simp [pyEnumerate, ih]

theorem getD_map (f : α → β) (d : β) (d' : α) :
    ∀ (l : List α) (i : Nat), i < l.length → (l.map f).getD i d = f (l.getD i d') := by
  intro l
  induction l with
  | nil => intro i h; simp at h
  | cons a l ih =>
    intro i h
    cases i with
    | zero => simp
    | succ i => simpa using ih i (by simpa using h)

theorem pyEnumerate_map_getD (f : Nat × α → β) (d : β) (d' : α) :
    ∀ (l : List α) (k i : Nat), i < l.length →
      ((pyEnumerate k l).map f).getD i d = f (k + i, l.getD i d') := by
  intro l
  induction l with
  | nil => intro k i h; simp at h
  | cons a l ih =>
    intro k i h
    cases i with
    | zero => simp [pyEnumerate]
    | succ i =>
      have := ih (k + 1) i (by simpa using h)
      simpa [pyEnumerate, Nat.add_assoc, Nat.add_comm 1 i] using this

theorem map_ident_pyEnumerate (f : Nat × Item → Item)
    (hf : ∀ p, ident (f p) = ident p.2) (l : List Item) (k : Nat) :
    (((pyEnumerate k l).map f).map ident) = l.map ident := by
  induction l generalizing k with
  | nil => simp [pyEnumerate]
  | cons a l ih => simp [pyEnumerate, hf, ih]

/-! ## Per-path lemmas for the orchestrator -/

theorem fallbackToSingleItems_length (env : Env) (batch : List Item) :
    (fallbackToSingleItems env batch).length = batch.length := by
  simp [fallbackToSingleItems]

theorem fallbackToSingleItems_map_ident (env : Env) (batch : List Item) :
    (fallbackToSingleItems env batch).map ident = batch.map ident := by
  induction batch with
  | nil => simp [fallbackToSingleItems]
  | cons a l ih =>
    simp only [fallbackToSingleItems, List.map_cons] at ih ⊢
    cases translateSingleText env a.text <;> simp [ident, ih]

theorem fallbackToSingleItems_append (env : Env) (b1 b2 : List Item) :
    fallbackToSingleItems env (b1 ++ b2) =
      fallbackToSingleItems env b1 ++ fallbackToSingleItems env b2 := by
  simp [fallbackToSingleItems]

theorem fallbackToSingleItems_getD (env : Env) (batch : List Item) (i : Nat)
    (h : i < batch.length) (d : Item) :
    (fallbackToSingleItems env batch).getD i d =
      (match translateSingleText env (batch.getD i d).text with
       | .ok t => { batch.getD i d with text := t }
       | .error _ => { batch.getD i d with text := errorPlaceholder (batch.getD i d).text }) := by
  unfold fallbackToSingleItems
  rw [getD_map _ d d batch i h]

theorem resolveAttempt_map_ident (env : Env) (batch : List Item) (raw : PyStr) :
    (resolveAttempt env batch raw).map ident = batch.map ident := by
  simp only [resolveAttempt]
  split
  · apply map_ident_pyEnumerate
    intro p
    rfl
  · apply map_ident_pyEnumerate
    intro p
    cases List.lookup (p.1 + 1) (getNumberedTextMap (pyStrip raw)) with
    | some t => rfl
    | none => cases translateSingleText env p.2.text <;> rfl

theorem resolveAttempt_length (env : Env) (batch : List Item) (raw : PyStr) :
    (resolveAttempt env batch raw).length = batch.length := by
  have h := resolveAttempt_map_ident env batch raw
  have h1 := congrArg List.length h
  simpa using h1

theorem resolveAttempt_success_getD (env : Env) (batch : List Item) (raw : PyStr)
    (hm : (getNumberedTextMap (pyStrip raw)).length = batch.length)
    (i : Nat) (h : i < batch.length) (d : Item) :
    (resolveAttempt env batch raw).getD i d =
      { batch.getD i d with
        text := ((getNumberedTextMap (pyStrip raw)).lookup (i + 1)).getD missingMarker } := by
  simp only [resolveAttempt]
  rw [if_pos hm, pyEnumerate_map_getD _ d d batch 0 i h]
  simp

theorem resolveAttempt_repair_getD (env : Env) (batch : List Item) (raw : PyStr)
    (hm : (getNumberedTextMap (pyStrip raw)).length ≠ batch.length)
    (i : Nat) (h : i < batch.length) (d : Item) :
    (resolveAttempt env batch raw).getD i d =
      (match (getNumberedTextMap (pyStrip raw)).lookup (i + 1) with
       | some t => { batch.getD i d with text := t }
       | none =>
         match translateSingleText env (batch.getD i d).text with
         | .ok t => { batch.getD i d with text := t }
         | .error _ =>
           { batch.getD i d with text := errorPlaceholder (batch.getD i d).text }) := by
  simp only [resolveAttempt]
  rw [if_neg hm, pyEnumerate_map_getD _ d d batch 0 i h]
  simp

/-! ## The attempt loop -/

theorem attemptLoop_all_error (env : Env) (batch : List Item) (fuel : Nat) :
    ∀ ctr, (∀ j, j < fuel → env.batchResp (ctr + j) = .error ()) →
      attemptLoop env batch fuel ctr = (none, ctr + fuel) := by
  induction fuel with
  | zero => intro ctr _; simp [attemptLoop]
  | succ n ih =>
    intro ctr h
    have h0 := h 0 (by omega)
    simp only [Nat.add_zero] at h0
    have hrest : ∀ j, j < n → env.batchResp (ctr + 1 + j) = .error () := by
      intro j hj
      have := h (j + 1) (by omega)
      simpa [Nat.add_assoc, Nat.add_comm 1 j] using this
    have := ih (ctr + 1) hrest
    simp only [attemptLoop, h0]
    rw [this]
    congr 1
    omega

theorem attemptLoop_none_inv (env : Env) (batch : List Item) (fuel : Nat) :
    ∀ ctr c1, attemptLoop env batch fuel ctr = (none, c1) →
      c1 = ctr + fuel ∧ ∀ j, j < fuel → env.batchResp (ctr + j) = .error () := by
  induction fuel with
  | zero =>
    intro ctr c1 h
    simp [attemptLoop] at h
    exact ⟨by omega, by omega⟩
  | succ n ih =>
    intro ctr c1 h
    simp only [attemptLoop] at h
    cases hb : env.batchResp ctr with
    | error e =>
      rw [hb] at h
      obtain ⟨h1, h2⟩ := ih (ctr + 1) c1 h
      refine ⟨by omega, ?_⟩
      intro j hj
      cases j with
      | zero => cases e; simpa using hb
      | succ j =>
        have := h2 j (by omega)
        simpa [Nat.add_assoc, Nat.add_comm 1 j] using this
    | ok raw => rw [hb] at h; simp at h

theorem attemptLoop_first_ok (env : Env) (batch : List Item) :
    ∀ (j fuel ctr : Nat) (raw : PyStr), j < fuel →
      (∀ i, i < j → env.batchResp (ctr + i) = .error ()) →
      env.batchResp (ctr + j) = .ok raw →
      attemptLoop env batch fuel ctr = (some (resolveAttempt env batch raw), ctr + j + 1) := by
  intro j
  induction j with
  | zero =>
    intro fuel ctr raw hj _ hok
    cases fuel with
    | zero => omega
    | succ n =>
      simp only [Nat.add_zero] at hok
      simp [attemptLoop, hok]
  | succ j ih =>
    intro fuel ctr raw hj hprev hok
    cases fuel with
    | zero => omega
    | succ n =>
      have h0 := hprev 0 (by omega)
      simp only [Nat.add_zero] at h0
      have hprev1 : ∀ i, i < j → env.batchResp (ctr + 1 + i) = .error () := by
        intro i hi
        have := hprev (i + 1) (by omega)
        simpa [Nat.add_assoc, Nat.add_comm 1 i] using this
      have hok1 : env.batchResp (ctr + 1 + j) = .ok raw := by
        have heq : ctr + 1 + j = ctr + (j + 1) := by omega
        rw [heq]; exact hok
      have hrec := ih n (ctr + 1) raw (by omega) hprev1 hok1
      simp only [attemptLoop, h0]
      rw [hrec]
      congr 1
      omega

theorem attemptLoop_some_inv (env : Env) (batch : List Item) :
    ∀ (fuel ctr c1 : Nat) (r : List Item),
      attemptLoop env batch fuel ctr = (some r, c1) →
      ∃ raw, r = resolveAttempt env batch raw := by
  intro fuel
  induction fuel with
  | zero => intro ctr c1 r h; simp [attemptLoop] at h
  | succ n ih =>
    intro ctr c1 r h
    simp only [attemptLoop] at h
    cases hb : env.batchResp ctr with
    | error e => rw [hb] at h; exact ih (ctr + 1) c1 r h
    | ok raw =>
      rw [hb] at h
      simp at h
      exact ⟨raw, h.1.symm⟩

/-! ## `translateBatch` path equations -/

theorem translateBatch_nil (env : Env) (mr ctr : Nat) :
    translateBatch env [] mr ctr = ([], ctr) := by
  rw [translateBatch]
  simp

theorem translateBatch_small (env : Env) (batch : List Item) (mr ctr : Nat)
    (hpos : 0 < batch.length) (hlt : batch.length < MIN_BATCH_SIZE_FOR_RECURSION) :
    translateBatch env batch mr ctr = (fallbackToSingleItems env batch, ctr) := by
  rw [translateBatch]
  rw [dif_neg (by omega), dif_pos hlt]

theorem translateBatch_attempt_ok (env : Env) (batch : List Item) (mr ctr : Nat)
    (r : List Item) (c1 : Nat)
    (h5 : MIN_BATCH_SIZE_FOR_RECURSION ≤ batch.length)
    (hal : attemptLoop env batch mr ctr = (some r, c1)) :
    translateBatch env batch mr ctr = (r, c1) := by
  rw [translateBatch]
  rw [dif_neg (by simp only [MIN_BATCH_SIZE_FOR_RECURSION] at h5; omega),
    dif_neg (by omega)]
  rw [hal]

theorem translateBatch_split (env : Env) (batch : List Item) (mr ctr c1 : Nat)
    (h5 : MIN_BATCH_SIZE_FOR_RECURSION ≤ batch.length)
    (hal : attemptLoop env batch mr ctr = (none, c1)) :
    translateBatch env batch mr ctr =
      ((translateBatch env (List.take (batch.length / 2) batch) 2 c1).1 ++
         (translateBatch env (List.drop (batch.length / 2) batch) 2
           (translateBatch env (List.take (batch.length / 2) batch) 2 c1).2).1,
       (translateBatch env (List.drop (batch.length / 2) batch) 2
         (translateBatch env (List.take (batch.length / 2) batch) 2 c1).2).2) := by
  rw [translateBatch]
  rw [dif_neg (by simp only [MIN_BATCH_SIZE_FOR_RECURSION] at h5; omega),
    dif_neg (by omega)]
  rw [hal]

/-! ## `translateBatch` invariants -/

theorem translateBatch_map_ident_aux (env : Env) :
    ∀ (n : Nat) (batch : List Item), batch.length ≤ n → ∀ (mr ctr : Nat),
      ((translateBatch env batch mr ctr).1).map ident = batch.map ident := by
  intro n
  induction n with
  | zero =>
    intro batch hlen mr ctr
    have hb : batch = [] := List.length_eq_zero.mp (by omega)
    subst hb
    rw [translateBatch_nil]
  | succ n ih =>
    intro batch hlen mr ctr
    by_cases h0 : batch.length = 0
    · have hb : batch = [] := List.length_eq_zero.mp h0
      subst hb
      rw [translateBatch_nil]
    by_cases h5 : batch.length < MIN_BATCH_SIZE_FOR_RECURSION
    · rw [translateBatch_small env batch mr ctr (by omega) h5]
      exact fallbackToSingleItems_map_ident env batch
    · cases hal : attemptLoop env batch mr ctr with
      | mk o c1 =>
        cases o with
        | some r =>
          rw [translateBatch_attempt_ok env batch mr ctr r c1 (by omega) hal]
          obtain ⟨raw, hraw⟩ := attemptLoop_some_inv env batch mr ctr c1 r hal
          subst hraw
          exact resolveAttempt_map_ident env batch raw
        | none =>
          rw [translateBatch_split env batch mr ctr c1 (by omega) hal]
          have hm5 : 5 ≤ batch.length := by
            simp only [MIN_BATCH_SIZE_FOR_RECURSION] at h5; omega
          have ht : (List.take (batch.length / 2) batch).length ≤ n := by
            simp only [List.length_take]; omega
          have hd : (List.drop (batch.length / 2) batch).length ≤ n := by
            simp only [List.length_drop]; omega
          have i1 := ih (List.take (batch.length / 2) batch) ht 2 c1
          have i2 := ih (List.drop (batch.length / 2) batch) hd 2
            (translateBatch env (List.take (batch.length / 2) batch) 2 c1).2
          simp only [List.map_append, i1, i2]
          rw [← List.map_append, List.take_append_drop]

theorem translateBatch_map_ident (env : Env) (batch : List Item) (mr ctr : Nat) :
    ((translateBatch env batch mr ctr).1).map ident = batch.map ident :=
  translateBatch_map_ident_aux env batch.length batch (Nat.le_refl _) mr ctr

theorem translateBatch_length (env : Env) (batch : List Item) (mr ctr : Nat) :
    ((translateBatch env batch mr ctr).1).length = batch.length := by
  have h := congrArg List.length (translateBatch_map_ident env batch mr ctr)
  simpa using h

theorem translateBatch_all_fail_aux (env : Env)
    (hfail : ∀ n, env.batchResp n = .error ()) :
    ∀ (n : Nat) (batch : List Item), batch.length ≤ n → ∀ (mr ctr : Nat),
      (translateBatch env batch mr ctr).1 = fallbackToSingleItems env batch := by
  intro n
  induction n with
  | zero =>
    intro batch hlen mr ctr
    have hb : batch = [] := List.length_eq_zero.mp (by omega)
    subst hb
    rw [translateBatch_nil]
    simp [fallbackToSingleItems]
  | succ n ih =>
    intro batch hlen mr ctr
    by_cases h0 : batch.length = 0
    · have hb : batch = [] := List.length_eq_zero.mp h0
      subst hb
      rw [translateBatch_nil]
      simp [fallbackToSingleItems]
    by_cases h5 : batch.length < MIN_BATCH_SIZE_FOR_RECURSION
    · rw [translateBatch_small env batch mr ctr (by omega) h5]
    · have hal := attemptLoop_all_error env batch mr ctr (fun j _ => hfail (ctr + j))
      rw [translateBatch_split env batch mr ctr (ctr + mr) (by omega) hal]
      have ht : (List.take (batch.length / 2) batch).length ≤ n := by
        simp only [List.length_take]
        simp only [MIN_BATCH_SIZE_FOR_RECURSION] at h5
        omega
      have hd : (List.drop (batch.length / 2) batch).length ≤ n := by
        simp only [List.length_drop]
        simp only [MIN_BATCH_SIZE_FOR_RECURSION] at h5
        omega
      have i1 := ih (List.take (batch.length / 2) batch) ht 2 (ctr + mr)
      have i2 := ih (List.drop (batch.length / 2) batch) hd 2
        (translateBatch env (List.take (batch.length / 2) batch) 2 (ctr + mr)).2
      simp only [i1, i2]
      rw [← fallbackToSingleItems_append, List.take_append_drop]

theorem translateBatch_all_fail (env : Env)
    (hfail : ∀ n, env.batchResp n = .error ()) (batch : List Item) (mr ctr : Nat) :
    (translateBatch env batch mr ctr).1 = fallbackToSingleItems env batch :=
  translateBatch_all_fail_aux env hfail batch.length batch (Nat.le_refl _) mr ctr

/-! ## Claims about the orchestrator -/

/-- C1: for every oracle and every input batch, `translate_batch` returns a
list of exactly `len(batch)` items whose order and identifying keys
(`original_index`, `sub_index`) match the input units one-for-one, on every
code path (the oracle ranges over full success, surgical repair, recursive
split and single-unit fallback). -/
theorem c1_translate_batch_count_and_order (env : Env) (batch : List Item)
    (maxRetries ctr : Nat) :
    ((translateBatch env batch maxRetries ctr).1).length = batch.length ∧
    ((translateBatch env batch maxRetries ctr).1).map ident = batch.map ident :=
  ⟨translateBatch_length env batch maxRetries ctr,
   translateBatch_map_ident env batch maxRetries ctr⟩

/-- C2: when the attempt `j` of the retry loop receives a response whose
decoded map does not have size `len(batch)`, `translate_batch` performs
surgical repair — every unit whose 1-based position is in the map gets the
map's text, every absent position gets an independent single-unit translation
(or the tagged placeholder if that raises) — and returns immediately after
attempt `j`, regardless of how many attempts remain. -/
theorem c2_surgical_repair (env : Env) (batch : List Item)
    (maxRetries ctr j : Nat) (raw : PyStr)
    (h5 : MIN_BATCH_SIZE_FOR_RECURSION ≤ batch.length)
    (hj : j < maxRetries)
    (hprev : ∀ i, i < j → env.batchResp (ctr + i) = .error ())
    (hok : env.batchResp (ctr + j) = .ok raw)
    (hm : (getNumberedTextMap (pyStrip raw)).length ≠ batch.length) :
    ∃ out, translateBatch env batch maxRetries ctr = (out, ctr + j + 1) ∧
      out.length = batch.length ∧
      ∀ i, i < batch.length → ∀ d : Item,
        (out.getD i d).text =
          (match (getNumberedTextMap (pyStrip raw)).lookup (i + 1) with
           | some t => t
           | none =>
             match translateSingleText env (batch.getD i d).text with
             | .ok t => t
             | .error _ => errorPlaceholder (batch.getD i d).text) := by
  have hal := attemptLoop_first_ok env batch j maxRetries ctr raw hj hprev hok
  refine ⟨resolveAttempt env batch raw,
    translateBatch_attempt_ok env batch maxRetries ctr _ _ h5 hal,
    resolveAttempt_length env batch raw, ?_⟩
  intro i hi d
  rw [resolveAttempt_repair_getD env batch raw hm i hi d]
  cases (getNumberedTextMap (pyStrip raw)).lookup (i + 1) with
  | some t => rfl
  | none => cases translateSingleText env (batch.getD i d).text <;> rfl

/-- C2 witness: a batch of five whose only attempt answers with a numbered
list missing position 3; the hypotheses of `c2_surgical_repair` hold at this
input and the theorem applies. -/
theorem c2_surgical_repair_witness :
    MIN_BATCH_SIZE_FOR_RECURSION ≤ batch5.length ∧
    (0 : Nat) < 2 ∧
    envBad.batchResp (0 + 0) = .ok rawBad ∧
    (getNumberedTextMap (pyStrip rawBad)).length ≠ batch5.length ∧
    (∃ out, translateBatch envBad batch5 2 0 = (out, 0 + 0 + 1) ∧
      out.length = batch5.length ∧
      ∀ i, i < batch5.length → ∀ d : Item,
        (out.getD i d).text =
          (match (getNumberedTextMap (pyStrip rawBad)).lookup (i + 1) with
           | some t => t
           | none =>
             match translateSingleText envBad (batch5.getD i d).text with
             | .ok t => t
             | .error _ => errorPlaceholder (batch5.getD i d).text)) :=
  ⟨by decide, by decide, rfl, by decide,
   c2_surgical_repair envBad batch5 2 0 0 rawBad (by decide) (by decide)
     (fun i hi => absurd hi (by omega)) rfl (by decide)⟩

/-- C3: the recursive split is entered only when every attempt of the retry
loop raised (first conjunct: any received response, even a count mismatch,
returns without splitting); when all `maxRetries` attempts raise, the batch
is split at `len(batch) / 2`, both halves are translated recursively (with
the Python default `max_retries = 2`) and the ordered results concatenated
(second conjunct); and when every attempt everywhere raises, the whole call
tree terminates and resolves via the single-unit fallback (third conjunct —
`translateBatch` being a total Lean function, termination holds by
construction). -/
theorem c3_recursive_split_fallback (env : Env) (batch : List Item)
    (maxRetries ctr : Nat) :
    (MIN_BATCH_SIZE_FOR_RECURSION ≤ batch.length →
      ∀ j raw, j < maxRetries →
        (∀ i, i < j → env.batchResp (ctr + i) = .error ()) →
        env.batchResp (ctr + j) = .ok raw →
        translateBatch env batch maxRetries ctr =
          (resolveAttempt env batch raw, ctr + j + 1)) ∧
    (MIN_BATCH_SIZE_FOR_RECURSION ≤ batch.length →
      (∀ j, j < maxRetries → env.batchResp (ctr + j) = .error ()) →
      translateBatch env batch maxRetries ctr =
        ((translateBatch env (List.take (batch.length / 2) batch) 2 (ctr + maxRetries)).1 ++
           (translateBatch env (List.drop (batch.length / 2) batch) 2
             (translateBatch env (List.take (batch.length / 2) batch) 2 (ctr + maxRetries)).2).1,
         (translateBatch env (List.drop (batch.length / 2) batch) 2
           (translateBatch env (List.take (batch.length / 2) batch) 2 (ctr + maxRetries)).2).2)) ∧
    ((∀ n, env.batchResp n = .error ()) →
      (translateBatch env batch maxRetries ctr).1 = fallbackToSingleItems env batch) := by
  refine ⟨?_, ?_, ?_⟩
  · intro h5 j raw hj hprev hok
    exact translateBatch_attempt_ok env batch maxRetries ctr _ _ h5
      (attemptLoop_first_ok env batch j maxRetries ctr raw hj hprev hok)
  · intro h5 hfail
    exact translateBatch_split env batch maxRetries ctr (ctr + maxRetries) h5
      (attemptLoop_all_error env batch maxRetries ctr hfail)
  · intro hfail
    exact translateBatch_all_fail env hfail batch maxRetries ctr

/-- C3 witness: a batch of eight whose every batch attempt raises resolves
entirely via the single-unit fallback. -/
theorem c3_recursive_split_fallback_witness :
    MIN_BATCH_SIZE_FOR_RECURSION ≤ batch8.length ∧
    (∀ n, envSplit.batchResp n = .error ()) ∧
    (translateBatch envSplit batch8 2 0).1 = fallbackToSingleItems envSplit batch8 :=
  ⟨by decide, fun _ => rfl,
   (c3_recursive_split_fallback envSplit batch8 2 0).2.2 (fun _ => rfl)⟩

/-- C4: a per-unit exception is never propagated: in the single-unit
fallback, and in surgical repair's per-unit calls, the failed unit's text
becomes the tagged placeholder `[Translation Error: <original text>]` and
the output still has one entry per input unit. -/
theorem c4_per_unit_error_placeholder (env : Env) (batch : List Item) (raw : PyStr) :
    (fallbackToSingleItems env batch).length = batch.length ∧
    (∀ i, i < batch.length → ∀ d : Item,
      env.singleResp (batch.getD i d).text = .error () →
      ((fallbackToSingleItems env batch).getD i d).text =
        errorPlaceholder (batch.getD i d).text) ∧
    ((getNumberedTextMap (pyStrip raw)).length ≠ batch.length →
      ∀ i, i < batch.length → ∀ d : Item,
        (getNumberedTextMap (pyStrip raw)).lookup (i + 1) = none →
        env.singleResp (batch.getD i d).text = .error () →
        ((resolveAttempt env batch raw).getD i d).text =
          errorPlaceholder (batch.getD i d).text) := by
  refine ⟨fallbackToSingleItems_length env batch, ?_, ?_⟩
  · intro i hi d herr
    rw [fallbackToSingleItems_getD env batch i hi d]
    simp only [translateSingleText, herr]
  · intro hm i hi d hnone herr
    rw [resolveAttempt_repair_getD env batch raw hm i hi d, hnone]
    simp only [translateSingleText, herr]

/-- C4 witness: with an oracle whose single-unit calls all raise, the unit
at position 3 (absent from `rawBad`) gets the tagged placeholder both in the
fallback and in surgical repair. -/
theorem c4_per_unit_error_placeholder_witness :
    envFail.singleResp (batch5.getD 2 default).text = .error () ∧
    (getNumberedTextMap (pyStrip rawBad)).length ≠ batch5.length ∧
    (getNumberedTextMap (pyStrip rawBad)).lookup (2 + 1) = none ∧
    ((fallbackToSingleItems envFail batch5).getD 2 default).text =
      errorPlaceholder (batch5.getD 2 default).text ∧
    ((resolveAttempt envFail batch5 rawBad).getD 2 default).text =
      errorPlaceholder (batch5.getD 2 default).text :=
  ⟨rfl, by decide, by decide,
   (c4_per_unit_error_placeholder envFail batch5 rawBad).2.1 2 (by decide) default rfl,
   (c4_per_unit_error_placeholder envFail batch5 rawBad).2.2 (by decide) 2 (by decide)
     default (by decide) rfl⟩

/-- C5: on the success path — attempt `j` of the loop receives a response
whose decoded map has size exactly `len(batch)` — the returned batch has,
for each input unit at 1-based position `i`, the map's entry for key `i`
(the decoder already whitespace-trimmed it), and the sentinel
`[Translation Missing]` for any position absent from the map. -/
theorem c5_success_path (env : Env) (batch : List Item)
    (maxRetries ctr j : Nat) (raw : PyStr)
    (h5 : MIN_BATCH_SIZE_FOR_RECURSION ≤ batch.length)
    (hj : j < maxRetries)
    (hprev : ∀ i, i < j → env.batchResp (ctr + i) = .error ())
    (hok : env.batchResp (ctr + j) = .ok raw)
    (hm : (getNumberedTextMap (pyStrip raw)).length = batch.length) :
    ∃ out, translateBatch env batch maxRetries ctr = (out, ctr + j + 1) ∧
      out.length = batch.length ∧
      ∀ i, i < batch.length → ∀ d : Item,
        (out.getD i d).text =
          ((getNumberedTextMap (pyStrip raw)).lookup (i + 1)).getD missingMarker := by
  have hal := attemptLoop_first_ok env batch j maxRetries ctr raw hj hprev hok
  refine ⟨resolveAttempt env batch raw,
    translateBatch_attempt_ok env batch maxRetries ctr _ _ h5 hal,
    resolveAttempt_length env batch raw, ?_⟩
  intro i hi d
  rw [resolveAttempt_success_getD env batch raw hm i hi d]

/-- C5 witness: a batch of five answered by the well-formed five-line
response `rawGood` on the first attempt. -/
theorem c5_success_path_witness :
    MIN_BATCH_SIZE_FOR_RECURSION ≤ batch5.length ∧
    (0 : Nat) < 2 ∧
    envGood.batchResp (0 + 0) = .ok rawGood ∧
    (getNumberedTextMap (pyStrip rawGood)).length = batch5.length ∧
    (∃ out, translateBatch envGood batch5 2 0 = (out, 0 + 0 + 1) ∧
      out.length = batch5.length ∧
      ∀ i, i < batch5.length → ∀ d : Item,
        (out.getD i d).text =
          ((getNumberedTextMap (pyStrip rawGood)).lookup (i + 1)).getD missingMarker) :=
  ⟨by decide, by decide, rfl, by decide,
   c5_success_path envGood batch5 2 0 0 rawGood (by decide) (by decide)
     (fun i hi => absurd hi (by omega)) rfl (by decide)⟩

/-- C6: `translate_batch` on the empty batch returns the empty list with the
attempt counter unchanged (no batch LLM attempt is made, and the result does
not depend on the oracle at all), and on every non-empty batch smaller than
`MIN_BATCH_SIZE_FOR_RECURSION = 5` it goes directly to the single-unit
fallback — again with the attempt counter unchanged — translating each unit
individually in order. -/
theorem c6_empty_and_small_batches (env : Env) (batch : List Item) (mr ctr : Nat) :
    translateBatch env [] mr ctr = ([], ctr) ∧
    (0 < batch.length → batch.length < MIN_BATCH_SIZE_FOR_RECURSION →
      translateBatch env batch mr ctr = (fallbackToSingleItems env batch, ctr) ∧
      ∀ i, i < batch.length → ∀ d : Item,
        ((translateBatch env batch mr ctr).1).getD i d =
          (match translateSingleText env (batch.getD i d).text with
           | .ok t => { batch.getD i d with text := t }
           | .error _ =>
             { batch.getD i d with text := errorPlaceholder (batch.getD i d).text })) := by
  refine ⟨translateBatch_nil env mr ctr, ?_⟩
  intro hpos hlt
  refine ⟨translateBatch_small env batch mr ctr hpos hlt, ?_⟩
  intro i hi d
  rw [translateBatch_small env batch mr ctr hpos hlt]
  exact fallbackToSingleItems_getD env batch i hi d

/-- C6 witness: the three-unit batch of the spec's concrete scenario falls
directly to the single-unit fallback. -/
theorem c6_empty_and_small_batches_witness :
    0 < batch3.length ∧ batch3.length < MIN_BATCH_SIZE_FOR_RECURSION ∧
    translateBatch envGood batch3 2 7 = (fallbackToSingleItems envGood batch3, 7) :=
  ⟨by decide, by decide,
   ((c6_empty_and_small_batches envGood batch3 2 7).2 (by decide) (by decide)).1⟩

/-- C9: `translate_batch` never mutates its input: in the embedding every
output item is the corresponding input item with only its `text` field
replaced (`item.copy()` plus a `'text'` assignment), on every code path. -/
theorem c9_fresh_copies (env : Env) (batch : List Item) (mr ctr i : Nat)
    (h : i < batch.length) (d : Item) :
    ((translateBatch env batch mr ctr).1).getD i d =
      { batch.getD i d with
        text := (((translateBatch env batch mr ctr).1).getD i d).text } := by
  have hlen : i < ((translateBatch env batch mr ctr).1).length := by
    rw [translateBatch_length]; exact h
  have e1 := getD_map ident (ident d) d ((translateBatch env batch mr ctr).1) i hlen
  have e2 := getD_map ident (ident d) d batch i h
  rw [translateBatch_map_ident] at e1
  have hid : ident (((translateBatch env batch mr ctr).1).getD i d) =
      ident (batch.getD i d) := by rw [← e1, e2]
  cases hout : ((translateBatch env batch mr ctr).1).getD i d with
  | mk o1 s1 t1 =>
    cases hbatch : batch.getD i d with
    | mk o2 s2 t2 =>
      rw [hout, hbatch] at hid
      simp only [ident, Prod.mk.injEq] at hid
      simp [hid.1, hid.2]

/-- C9 witness: applied to the first unit of a concrete batch. -/
theorem c9_fresh_copies_witness :
    0 < batch5.length ∧
    ((translateBatch envGood batch5 2 0).1).getD 0 default =
      { batch5.getD 0 default with
        text := (((translateBatch envGood batch5 2 0).1).getD 0 default).text } :=
  ⟨by decide, c9_fresh_copies envGood batch5 2 0 0 (by decide) default⟩

/-! ## The rate limiter -/

theorem winMod_next (period now : ℚ) (hp : 0 < period) :
    now + (period - winMod now period) = period * ((windowId now period : ℚ) + 1) := by
  simp only [winMod, windowId]
  ring

theorem windowId_next (period now : ℚ) (hp : 0 < period) :
    windowId (now + (period - winMod now period)) period = windowId now period + 1 := by
  rw [winMod_next period now hp]
  simp only [windowId]
  rw [mul_comm, mul_div_assoc, div_self (ne_of_gt hp), mul_one]
  have hcast : ((⌊now / period⌋ : ℚ) + 1) = ((⌊now / period⌋ + 1 : ℤ) : ℚ) := by
    push_cast
    ring
  rw [hcast, Int.floor_intCast]

theorem acquireFrom_sound (counts : ℤ → ℕ) (limit : ℕ) (period : ℚ) :
    ∀ (fuel : ℕ) (now : ℚ) (w : ℤ),
      acquireFrom counts limit period now fuel = some w → counts w ≤ limit := by
  intro fuel
  induction fuel with
  | zero => intro now w h; simp [acquireFrom] at h
  | succ n ih =>
    intro now w h
    simp only [acquireFrom] at h
    by_cases hc : counts (windowId now period) ≤ limit
    · rw [if_pos hc] at h
      simp at h
      rwa [← h]
    · rw [if_neg hc] at h
      exact ih _ w h

theorem acquireFrom_schedule (counts : ℤ → ℕ) (limit : ℕ) (period : ℚ)
    (hp : 0 < period) :
    ∀ (k fuel : ℕ) (now : ℚ), k < fuel →
      (∀ j : ℕ, j < k → limit < counts (windowId now period + j)) →
      counts (windowId now period + k) ≤ limit →
      acquireFrom counts limit period now fuel = some (windowId now period + k) := by
  intro k
  induction k with
  | zero =>
    intro fuel now hk _ hadm
    cases fuel with
    | zero => omega
    | succ n =>
      simp only [Nat.cast_zero, Int.add_zero] at hadm
      simp [acquireFrom, hadm]
  | succ k ih =>
    intro fuel now hk hprev hadm
    cases fuel with
    | zero => omega
    | succ n =>
      have h0 : limit < counts (windowId now period) := by
        have := hprev 0 (by omega)
        simpa using this
      simp only [acquireFrom, if_neg (Nat.not_le.mpr h0)]
      have hstep := windowId_next period now hp
      have hprev1 : ∀ j : ℕ, j < k →
          limit < counts (windowId (now + (period - winMod now period)) period + j) := by
        intro j hj
        rw [hstep]
        have := hprev (j + 1) (by omega)
        have heq : windowId now period + ((j : ℤ) + 1) = windowId now period + 1 + j := by ring
        push_cast at this
        rw [heq] at this
        exact this
      have hadm1 : counts (windowId (now + (period - winMod now period)) period + k) ≤ limit := by
        rw [hstep]
        have heq : windowId now period + ((k : ℤ) + 1) = windowId now period + 1 + k := by ring
        push_cast at hadm
        rw [heq] at hadm
        exact hadm
      have hrec := ih n (now + (period - winMod now period)) (by omega) hprev1 hadm1
      rw [hrec, hstep]
      congr 1
      push_cast
      ring

/-- C7: `RateLimiter.acquire` never returns an error — any return is a
success in a window whose post-increment count is within the limit (first
conjunct); it computes `windowId = floor(now / period)` and, when over
quota in `k` consecutive windows, sleeps to each next window boundary and
returns in the first admissible window (second conjunct); the sleep
`period - now % period` lands exactly at the start of window
`windowId + 1` (third conjunct).  The shared store's atomic
increment-with-expiry is abstracted as the oracle `counts`, which reports
the post-increment value this caller observes per window. -/
theorem c7_acquire_blocks_until_permit (counts : ℤ → ℕ) (limit : ℕ)
    (period now : ℚ) (fuel : ℕ) :
    (∀ w : ℤ, acquireFrom counts limit period now fuel = some w → counts w ≤ limit) ∧
    (0 < period → ∀ k : ℕ, k < fuel →
      (∀ j : ℕ, j < k → limit < counts (windowId now period + j)) →
      counts (windowId now period + k) ≤ limit →
      acquireFrom counts limit period now fuel = some (windowId now period + k)) ∧
    (0 < period →
      now + (period - winMod now period) = period * ((windowId now period : ℚ) + 1)) :=
  ⟨fun w h => acquireFrom_sound counts limit period fuel now w h,
   fun hp k hk hprev hadm => acquireFrom_schedule counts limit period hp k fuel now hk hprev hadm,
   fun hp => winMod_next period now hp⟩

/-- C7 witness: `limit = 1`, `period = 2`, starting at time 0 with the first
two windows over quota: the caller returns in window 2. -/
theorem c7_acquire_blocks_until_permit_witness :
    (0 : ℚ) < 2 ∧ (2 : ℕ) < 3 ∧
    (∀ j : ℕ, j < 2 → 1 < countsW ((0 : ℤ) + j)) ∧
    countsW ((0 : ℤ) + 2) ≤ 1 ∧
    acquireFrom countsW 1 2 0 3 = some ((0 : ℤ) + 2) := by
  have hw : windowId 0 2 = 0 := by simp [windowId]
  refine ⟨by norm_num, by omega, by decide, by decide, ?_⟩
  have h := (c7_acquire_blocks_until_permit countsW 1 2 0 3).2.1 (by norm_num) 2 (by omega)
    (by rw [hw]; decide) (by rw [hw]; decide)
  rw [hw] at h
  exact h

/-! ## The progress-reporting driver -/

theorem chunkLoop_join (ts : List PyStr) :
    ∀ (cur : List PyStr) (cnt : ℚ), (chunkLoop cur cnt ts).join = cur ++ ts := by
  induction ts with
  | nil =>
    intro cur cnt
    by_cases hc : cur.isEmpty
    · have : cur = [] := List.isEmpty_iff.mp hc
      subst this
      simp [chunkLoop]
    · simp [chunkLoop, hc]
  | cons t rest ih =>
    intro cur cnt
    simp only [chunkLoop]
    split
    · simp [ih]
    · rw [ih]
      simp

theorem runBatches_eq_chunks (tr : List PyStr → List PyStr) (ts : List PyStr) :
    ∀ (acc cur : List PyStr) (cnt : ℚ),
      runBatches tr acc cur cnt ts = acc ++ ((chunkLoop cur cnt ts).map tr).join := by
  induction ts with
  | nil =>
    intro acc cur cnt
    by_cases hc : cur.isEmpty
    · simp [runBatches, chunkLoop, hc]
    · simp [runBatches, chunkLoop, hc]
  | cons t rest ih =>
    intro acc cur cnt
    simp only [runBatches, chunkLoop]
    split
    · rw [ih]
      simp
    · rw [ih]

theorem join_map_length_preserving (tr : List PyStr → List PyStr)
    (h : ∀ b, (tr b).length = b.length) (L : List (List PyStr)) :
    ((L.map tr).join).length = (L.join).length := by
  induction L with
  | nil => simp
  | cons b L ih => simp [h, ih]

/-- C8: the `translate_file` driver invokes the per-batch translator once per
batch in sequence and concatenates the outputs in batch order (first
conjunct); the batches partition the input texts in order (second conjunct);
when the translator is length-preserving — as `_translate_batch` always is —
the defensive count re-check passes and the concatenation is handed to the
serializer (third conjunct); a total-count mismatch raises instead of
returning a result (fourth conjunct). -/
theorem c8_driver_concat_and_check (tr : List PyStr → List PyStr)
    (texts : List PyStr) :
    runBatches tr [] [] 0 texts = ((chunkLoop [] 0 texts).map tr).join ∧
    (chunkLoop [] 0 texts).join = texts ∧
    ((∀ b, (tr b).length = b.length) →
      translateFileTexts tr texts = .ok (((chunkLoop [] 0 texts).map tr).join)) ∧
    ((runBatches tr [] [] 0 texts).length ≠ texts.length →
      translateFileTexts tr texts = .error ()) := by
  have h1 := runBatches_eq_chunks tr texts [] [] 0
  have h2 : (chunkLoop [] 0 texts).join = texts := by
    rw [chunkLoop_join texts [] 0]
    simp
  simp only [List.nil_append] at h1
  refine ⟨h1, h2, ?_, ?_⟩
  · intro hlen
    have h3 : (((chunkLoop [] 0 texts).map tr).join).length = texts.length := by
      rw [join_map_length_preserving tr hlen, h2]
    simp only [translateFileTexts, h1]
    rw [if_neg (by omega)]
  · intro hne
    simp only [translateFileTexts]
    rw [if_pos hne]

/-- C8 witness: the identity translator is length-preserving, so the driver
returns the concatenation of its batch outputs for a concrete document. -/
theorem c8_driver_concat_and_check_witness :
    (∀ b : List PyStr, (id b : List PyStr).length = b.length) ∧
    translateFileTexts id textsW = .ok (((chunkLoop [] 0 textsW).map id).join) :=
  ⟨fun _ => rfl,
   (c8_driver_concat_and_check id textsW).2.2.1 (fun _ => rfl)⟩

/-! ## Character facts -/

theorem isDigit_not_ws (c : Char) (h : c.isDigit = true) : c.isWhitespace = false := by
  have h1 : c ≠ ' ' := by rintro rfl; exact absurd h (by decide)
  have h2 : c ≠ '\t' := by rintro rfl; exact absurd h (by decide)
  have h3 : c ≠ '\r' := by rintro rfl; exact absurd h (by decide)
  have h4 : c ≠ '\n' := by rintro rfl; exact absurd h (by decide)
  simp [Char.isWhitespace, h1, h2, h3, h4]

theorem isDigit_ne_newline (c : Char) (h : c.isDigit = true) : c ≠ '\n' := by
  rintro rfl; exact absurd h (by decide)

theorem digitChar_isDigit : ∀ d, d < 10 → (digitChar d).isDigit = true := by decide

theorem digitVal_digitChar : ∀ d, d < 10 → digitVal (digitChar d) = d := by decide

/-! ## `pyStripEnd` and `pyStripStart` -/

theorem pyStripEnd_nil_of_all_ws :
    ∀ s : PyStr, (∀ c ∈ s, c.isWhitespace = true) → pyStripEnd s = [] := by
  intro s
  induction s with
  | nil => intro _; rfl
  | cons c s ih =>
    intro h
    have hs := ih (fun x hx => h x (List.mem_cons_of_mem c hx))
    simp [pyStripEnd, hs, h c (List.mem_cons_self c s)]

theorem all_ws_of_pyStripEnd_nil :
    ∀ s : PyStr, pyStripEnd s = [] → ∀ c ∈ s, c.isWhitespace = true := by
  intro s
  induction s with
  | nil => intro _ c hc; simp at hc
  | cons c s ih =>
    intro h x hx
    simp only [pyStripEnd] at h
    cases hs : pyStripEnd s with
    | nil =>
      rw [hs] at h
      rcases List.mem_cons.mp hx with h1 | h1
      · subst h1
        by_cases hw : x.isWhitespace
        · exact hw
        · rw [if_neg hw] at h; simp at h
      · exact ih hs x h1
    | cons d r => rw [hs] at h; simp at h

theorem pyStripEnd_ne_nil (s : PyStr) (c : Char) (hc : c ∈ s)
    (hw : c.isWhitespace = false) : pyStripEnd s ≠ [] := by
  intro h
  have := all_ws_of_pyStripEnd_nil s h c hc
  rw [this] at hw
  exact absurd hw (by simp)

theorem pyStripEnd_cons_not_ws (c : Char) (s : PyStr) (hc : c.isWhitespace = false) :
    pyStripEnd (c :: s) = c :: pyStripEnd s := by
  simp only [pyStripEnd]
  cases hs : pyStripEnd s with
  | nil => rw [if_neg (by simp [hc])]
  | cons d r => rfl

theorem pyStripEnd_cons_eq (c : Char) (s : PyStr) :
    pyStripEnd (c :: s) =
      match pyStripEnd s with
      | [] => if c.isWhitespace = true then [] else [c]
      | d :: r => c :: d :: r := rfl

theorem pyStripEnd_append (a b : PyStr) (c : Char) (hc : c ∈ b)
    (hw : c.isWhitespace = false) : pyStripEnd (a ++ b) = a ++ pyStripEnd b := by
  induction a with
  | nil => simp
  | cons x a ih =>
    have hne : a ++ pyStripEnd b ≠ [] := by
      intro h
      have hb := pyStripEnd_ne_nil b c hc hw
      rcases List.append_eq_nil.mp h with ⟨_, h2⟩
      exact hb h2
    cases hcons : a ++ pyStripEnd b with
    | nil => exact absurd hcons hne
    | cons d r =>
      have key : pyStripEnd (a ++ b) = d :: r := by rw [ih, hcons]
      rw [List.cons_append, pyStripEnd_cons_eq, key, List.cons_append, hcons]

theorem mem_pyStripEnd (s : PyStr) : ∀ x ∈ pyStripEnd s, x ∈ s := by
  induction s with
  | nil => intro x hx; simp [pyStripEnd] at hx
  | cons c s ih =>
    intro x hx
    simp only [pyStripEnd] at hx
    cases hs : pyStripEnd s with
    | nil =>
      rw [hs] at hx
      by_cases hw : c.isWhitespace
      · rw [if_pos hw] at hx; simp at hx
      · rw [if_neg hw] at hx
        simp at hx
        simp [hx]
    | cons d r =>
      rw [hs] at hx
      rcases List.mem_cons.mp hx with h1 | h1
      · simp [h1]
      · have := ih x (by rw [hs]; exact h1)
        exact List.mem_cons_of_mem c this

theorem pyStripEnd_idem (s : PyStr) : pyStripEnd (pyStripEnd s) = pyStripEnd s := by
  induction s with
  | nil => rfl
  | cons c s ih =>
    simp only [pyStripEnd]
    cases hs : pyStripEnd s with
    | nil =>
      by_cases hw : c.isWhitespace
      · rw [if_pos hw]; rfl
      · rw [if_neg hw]
        simp [pyStripEnd, hw]
    | cons d r =>
      rw [hs] at ih
      simp only [pyStripEnd] at ih ⊢
      cases hr : pyStripEnd r with
      | nil =>
        rw [hr] at ih
        by_cases hd : d.isWhitespace
        · rw [if_pos hd] at ih; simp at ih
        · rw [if_neg hd] at ih
          rw [if_neg hd]
          simp at ih
          simp [ih]
      | cons e q =>
        rw [hr] at ih
        rw [ih]

theorem pyStripStart_cons_not_ws (c : Char) (s : PyStr) (hc : c.isWhitespace = false) :
    pyStripStart (c :: s) = c :: s := by
  simp [pyStripStart, List.dropWhile_cons, hc]

theorem pyStripStart_cons_ws (c : Char) (s : PyStr) (hc : c.isWhitespace = true) :
    pyStripStart (c :: s) = pyStripStart s := by
  simp [pyStripStart, List.dropWhile_cons, hc]

theorem pyStripStart_nil_of_all_ws (s : PyStr) (h : ∀ c ∈ s, c.isWhitespace = true) :
    pyStripStart s = [] := by
  induction s with
  | nil => rfl
  | cons c s ih =>
    rw [pyStripStart_cons_ws c s (h c (List.mem_cons_self c s))]
    exact ih (fun x hx => h x (List.mem_cons_of_mem c hx))

theorem pyStripStart_idem (s : PyStr) : pyStripStart (pyStripStart s) = pyStripStart s := by
  induction s with
  | nil => rfl
  | cons c s ih =>
    by_cases hc : c.isWhitespace
    · rw [pyStripStart_cons_ws c s hc, ih]
    · rw [pyStripStart_cons_not_ws c s (by simp [hc]),
        pyStripStart_cons_not_ws c s (by simp [hc])]

theorem pyStripStart_pyStripEnd_comm (s : PyStr) :
    pyStripStart (pyStripEnd s) = pyStripEnd (pyStripStart s) := by
  induction s with
  | nil => rfl
  | cons c s ih =>
    by_cases hc : c.isWhitespace
    · cases hs : pyStripEnd s with
      | nil =>
        have hall := all_ws_of_pyStripEnd_nil s hs
        have h1 : pyStripEnd (c :: s) = [] := by
          simp [pyStripEnd, hs, hc]
        rw [h1, pyStripStart_cons_ws c s hc, pyStripStart_nil_of_all_ws s hall]
        rfl
      | cons d r =>
        have h1 : pyStripEnd (c :: s) = c :: d :: r := by
          simp [pyStripEnd, hs]
        rw [h1, pyStripStart_cons_ws c (d :: r) hc, pyStripStart_cons_ws c s hc, ← hs, ih]
    · have hcf : c.isWhitespace = false := by simp [hc]
      rw [pyStripEnd_cons_not_ws c s hcf, pyStripStart_cons_not_ws c (pyStripEnd s) hcf,
        pyStripStart_cons_not_ws c s hcf, pyStripEnd_cons_not_ws c s hcf]

theorem pyStrip_pyStripEnd (s : PyStr) : pyStrip (pyStripEnd s) = pyStrip s := by
  simp only [pyStrip]
  rw [pyStripStart_pyStripEnd_comm, pyStripEnd_idem]

theorem pyStrip_pyStripStart (s : PyStr) : pyStrip (pyStripStart s) = pyStrip s := by
  simp only [pyStrip]
  rw [pyStripStart_idem]

theorem pyStrip_cons_ws (c : Char) (s : PyStr) (hc : c.isWhitespace = true) :
    pyStrip (c :: s) = pyStrip s := by
  simp only [pyStrip]
  rw [pyStripStart_cons_ws c s hc]

/-! ## `splitLines` and `joinLines` -/

theorem splitLines_no_newline (l : PyStr) (h : ∀ c ∈ l, c ≠ '\n') :
    splitLines l = [l] := by
  induction l with
  | nil => rfl
  | cons c s ih =>
    have hc : c ≠ '\n' := h c (List.mem_cons_self c s)
    have hs := ih (fun x hx => h x (List.mem_cons_of_mem c hx))
    simp [splitLines, hc, hs]

theorem splitLines_append_newline (l t : PyStr) (h : ∀ c ∈ l, c ≠ '\n') :
    splitLines (l ++ '\n' :: t) = l :: splitLines t := by
  induction l with
  | nil => simp [splitLines]
  | cons c s ih =>
    have hc : c ≠ '\n' := h c (List.mem_cons_self c s)
    have hs := ih (fun x hx => h x (List.mem_cons_of_mem c hx))
    simp [splitLines, hc, hs]

theorem joinLines_cons (l : PyStr) (M : List PyStr) (h : M ≠ []) :
    joinLines (l :: M) = l ++ '\n' :: joinLines M := by
  cases M with
  | nil => exact absurd rfl h
  | cons m ms => rfl

theorem mapLast_ne_nil (f : PyStr → PyStr) (M : List PyStr) (h : M ≠ []) :
    mapLast f M ≠ [] := by
  cases M with
  | nil => exact absurd rfl h
  | cons m ms => cases ms <;> simp [mapLast]

theorem mem_mapLast (f : PyStr → PyStr) :
    ∀ (M : List PyStr) (l : PyStr), l ∈ mapLast f M → l ∈ M ∨ ∃ x ∈ M, l = f x := by
  intro M
  induction M with
  | nil => intro l hl; simp [mapLast] at hl
  | cons m ms ih =>
    intro l hl
    cases ms with
    | nil =>
      simp [mapLast] at hl
      exact Or.inr ⟨m, List.mem_cons_self m [], hl⟩
    | cons m2 ms2 =>
      simp only [mapLast] at hl
      rcases List.mem_cons.mp hl with h1 | h1
      · exact Or.inl (by simp [h1])
      · rcases ih l h1 with h2 | ⟨x, hx, hfx⟩
        · exact Or.inl (List.mem_cons_of_mem m h2)
        · exact Or.inr ⟨x, List.mem_cons_of_mem m hx, hfx⟩

theorem mem_joinLines (L : List PyStr) (l : PyStr) (c : Char)
    (hc : c ∈ l) (hl : l ∈ L) : c ∈ joinLines L := by
  induction L with
  | nil => simp at hl
  | cons m ms ih =>
    cases ms with
    | nil =>
      simp at hl
      subst hl
      simpa [joinLines] using hc
    | cons m2 ms2 =>
      rw [joinLines_cons m (m2 :: ms2) (by simp)]
      rcases List.mem_cons.mp hl with h1 | h1
      · subst h1; exact List.mem_append_left _ hc
      · exact List.mem_append_right _ (List.mem_cons_of_mem '\n' (ih h1))

theorem pyStripEnd_joinLines :
    ∀ (L : List PyStr),
      (∀ l ∈ L, ∃ c ∈ l, c.isWhitespace = false) →
      pyStripEnd (joinLines L) = joinLines (mapLast pyStripEnd L) := by
  intro L
  induction L with
  | nil => intro _; rfl
  | cons m ms ih =>
    intro h
    cases ms with
    | nil => rfl
    | cons m2 ms2 =>
      obtain ⟨c2, hc2m, hc2w⟩ := h m2 (by simp)
      have hcJ : c2 ∈ joinLines (m2 :: ms2) := mem_joinLines (m2 :: ms2) m2 c2 hc2m (by simp)
      rw [joinLines_cons m (m2 :: ms2) (by simp)]
      rw [pyStripEnd_append m ('\n' :: joinLines (m2 :: ms2)) c2 (by simp [hcJ]) hc2w]
      have hne : pyStripEnd (joinLines (m2 :: ms2)) ≠ [] :=
        pyStripEnd_ne_nil _ c2 hcJ hc2w
      cases hsplit : pyStripEnd (joinLines (m2 :: ms2)) with
      | nil => exact absurd hsplit hne
      | cons d r =>
        rw [pyStripEnd_cons_eq, hsplit]
        rw [ih (fun l hl => h l (List.mem_cons_of_mem m hl))] at hsplit
        rw [show mapLast pyStripEnd (m :: m2 :: ms2) = m :: mapLast pyStripEnd (m2 :: ms2)
          from rfl]
        rw [joinLines_cons m (mapLast pyStripEnd (m2 :: ms2))
          (mapLast_ne_nil pyStripEnd (m2 :: ms2) (by simp))]
        rw [hsplit]

theorem pyStripStart_joinLines (c : Char) (l : PyStr) (L : List PyStr)
    (hc : c.isWhitespace = false) :
    pyStripStart (joinLines ((c :: l) :: L)) = joinLines ((c :: l) :: L) := by
  cases L with
  | nil => exact pyStripStart_cons_not_ws c l hc
  | cons m ms =>
    rw [joinLines_cons (c :: l) (m :: ms) (by simp), List.cons_append]
    exact pyStripStart_cons_not_ws c _ hc

theorem splitLines_joinLines :
    ∀ (M : List PyStr), M ≠ [] → (∀ l ∈ M, ∀ c ∈ l, c ≠ '\n') →
      splitLines (joinLines M) = M := by
  intro M
  induction M with
  | nil => intro h _; exact absurd rfl h
  | cons m ms ih =>
    intro _ h
    cases ms with
    | nil => exact splitLines_no_newline m (h m (by simp))
    | cons m2 ms2 =>
      rw [joinLines_cons m (m2 :: ms2) (by simp)]
      rw [splitLines_append_newline m (joinLines (m2 :: ms2)) (h m (by simp))]
      rw [ih (by simp) (fun l hl => h l (List.mem_cons_of_mem m hl))]

/-! ## Decimal rendering -/

theorem natToDigitsCore_irrel :
    ∀ (n f g : Nat), n < f → n < g → natToDigitsCore f n = natToDigitsCore g n := by
  intro n
  induction n using Nat.strong_induction_on with
  | _ n ih =>
    intro f g hf hg
    cases f with
    | zero => omega
    | succ f =>
      cases g with
      | zero => omega
      | succ g =>
        simp only [natToDigitsCore]
        by_cases h10 : n < 10
        · rw [if_pos h10, if_pos h10]
        · rw [if_neg h10, if_neg h10]
          have hdiv : n / 10 < n := Nat.div_lt_self (by omega) (by omega)
          rw [ih (n / 10) hdiv f g (by omega) (by omega)]

theorem natToDigits_unfold (n : Nat) :
    natToDigits n =
      if n < 10 then [digitChar n]
      else natToDigits (n / 10) ++ [digitChar (n % 10)] := by
  conv_lhs => rw [natToDigits]
  conv_lhs => rw [show natToDigitsCore (n + 1) n =
    (if n < 10 then [digitChar n]
     else natToDigitsCore n (n / 10) ++ [digitChar (n % 10)]) from rfl]
  by_cases h10 : n < 10
  · rw [if_pos h10, if_pos h10]
  · rw [if_neg h10, if_neg h10]
    have hdiv : n / 10 < n := Nat.div_lt_self (by omega) (by omega)
    rw [natToDigitsCore_irrel (n / 10) n (n / 10 + 1) (by omega) (by omega)]
    rfl

theorem natToDigits_ne_nil (n : Nat) : natToDigits n ≠ [] := by
  rw [natToDigits_unfold]
  by_cases h10 : n < 10
  · rw [if_pos h10]; simp
  · rw [if_neg h10]; simp

theorem natToDigits_all_digit :
    ∀ (n : Nat), ∀ c ∈ natToDigits n, c.isDigit = true := by
  intro n
  induction n using Nat.strong_induction_on with
  | _ n ih =>
    intro c hc
    rw [natToDigits_unfold] at hc
    by_cases h10 : n < 10
    · rw [if_pos h10] at hc
      simp at hc
      rw [hc]
      exact digitChar_isDigit n h10
    · rw [if_neg h10] at hc
      rcases List.mem_append.mp hc with h1 | h1
      · exact ih (n / 10) (Nat.div_lt_self (by omega) (by omega)) c h1
      · simp at h1
        rw [h1]
        exact digitChar_isDigit (n % 10) (Nat.mod_lt n (by omega))

theorem digitsToNat_append_digit (ds : PyStr) (c : Char) :
    digitsToNat (ds ++ [c]) = 10 * digitsToNat ds + digitVal c := by
  simp [digitsToNat, List.foldl_append]

theorem digitsToNat_natToDigits : ∀ (n : Nat), digitsToNat (natToDigits n) = n := by
  intro n
  induction n using Nat.strong_induction_on with
  | _ n ih =>
    rw [natToDigits_unfold]
    by_cases h10 : n < 10
    · rw [if_pos h10]
      have := digitVal_digitChar n h10
      simp [digitsToNat, digitVal_digitChar n h10]
    · rw [if_neg h10]
      rw [digitsToNat_append_digit, ih (n / 10) (Nat.div_lt_self (by omega) (by omega)),
        digitVal_digitChar (n % 10) (Nat.mod_lt n (by omega))]
      omega

/-! ## Parsing an encoded line -/

theorem takeWhile_append_stop (p : Char → Bool) :
    ∀ (a : List Char) (x : Char) (b : List Char),
      (∀ c ∈ a, p c = true) → p x = false →
      (a ++ x :: b).takeWhile p = a ∧ (a ++ x :: b).dropWhile p = x :: b := by
  intro a
  induction a with
  | nil =>
    intro x b _ hx
    simp [List.takeWhile_cons, List.dropWhile_cons, hx]
  | cons c a ih =>
    intro x b ha hx
    have hc := ha c (List.mem_cons_self c a)
    obtain ⟨h1, h2⟩ := ih x b (fun d hd => ha d (List.mem_cons_of_mem c hd)) hx
    simp [List.takeWhile_cons, List.dropWhile_cons, hc, h1, h2]

theorem pyStrip_encodeLine (k : Nat) (t : PyStr) :
    pyStrip (encodeLine k t) = natToDigits k ++ '.' :: pyStripEnd (' ' :: t) := by
  obtain ⟨c0, cr, hk⟩ : ∃ c0 cr, natToDigits k = c0 :: cr := by
    cases h : natToDigits k with
    | nil => exact absurd h (natToDigits_ne_nil k)
    | cons c0 cr => exact ⟨c0, cr, rfl⟩
  have hc0d : c0.isDigit = true :=
    natToDigits_all_digit k c0 (by rw [hk]; simp)
  have hc0w : c0.isWhitespace = false := isDigit_not_ws c0 hc0d
  simp only [pyStrip, encodeLine]
  rw [hk, List.cons_append, pyStripStart_cons_not_ws c0 _ hc0w, ← List.cons_append, ← hk]
  rw [pyStripEnd_append (natToDigits k) ('.' :: ' ' :: t) '.' (by simp) (by decide)]
  rw [pyStripEnd_cons_not_ws '.' (' ' :: t) (by decide)]

theorem parseNumberedLine_encodeLine (k : Nat) (t : PyStr) :
    parseNumberedLine (encodeLine k t) = some (k, pyStrip t) := by
  have hstrip := pyStrip_encodeLine k t
  obtain ⟨htake, hdrop⟩ := takeWhile_append_stop Char.isDigit (natToDigits k) '.'
    (pyStripEnd (' ' :: t)) (natToDigits_all_digit k) (by decide)
  simp only [parseNumberedLine, hstrip, htake, hdrop]
  rw [if_neg (by simp [List.isEmpty_iff, natToDigits_ne_nil k])]
  have hrest : pyStrip (List.dropWhile Char.isWhitespace (pyStripEnd (' ' :: t))) =
      pyStrip t := by
    rw [show List.dropWhile Char.isWhitespace (pyStripEnd (' ' :: t)) =
      pyStripStart (pyStripEnd (' ' :: t)) from rfl]
    rw [pyStrip_pyStripStart, pyStrip_pyStripEnd, pyStrip_cons_ws ' ' t (by decide)]
  rw [hrest, digitsToNat_natToDigits]

theorem encodeLine_no_newline (k : Nat) (t : PyStr) (ht : ∀ c ∈ t, c ≠ '\n') :
    ∀ c ∈ encodeLine k t, c ≠ '\n' := by
  intro c hc
  simp only [encodeLine] at hc
  rcases List.mem_append.mp hc with h1 | h1
  · exact isDigit_ne_newline c (natToDigits_all_digit k c h1)
  · rcases List.mem_cons.mp h1 with h2 | h2
    · subst h2; decide
    · rcases List.mem_cons.mp h2 with h3 | h3
      · subst h3; decide
      · exact ht c h3

theorem encodeLine_has_nonws (k : Nat) (t : PyStr) :
    ∃ c ∈ encodeLine k t, c.isWhitespace = false := by
  refine ⟨'.', ?_, by decide⟩
  simp only [encodeLine]
  exact List.mem_append_right _ (List.mem_cons_self '.' _)

theorem encodeLine_head_not_ws (k : Nat) (t : PyStr) :
    ∃ c r, encodeLine k t = c :: r ∧ c.isWhitespace = false := by
  obtain ⟨c0, cr, hk⟩ : ∃ c0 cr, natToDigits k = c0 :: cr := by
    cases h : natToDigits k with
    | nil => exact absurd h (natToDigits_ne_nil k)
    | cons c0 cr => exact ⟨c0, cr, rfl⟩
  have hc0w : c0.isWhitespace = false :=
    isDigit_not_ws c0 (natToDigits_all_digit k c0 (by rw [hk]; simp))
  exact ⟨c0, cr ++ '.' :: ' ' :: t, by simp [encodeLine, hk], hc0w⟩

/-! ## Folding the decoded lines -/

theorem parseNumberedLine_pyStripEnd (l : PyStr) :
    parseNumberedLine (pyStripEnd l) = parseNumberedLine l := by
  simp only [parseNumberedLine, pyStrip_pyStripEnd]

theorem foldl_foldLine_mapLast :
    ∀ (L : List PyStr) (m : List (Nat × PyStr)),
      (mapLast pyStripEnd L).foldl foldLine m = L.foldl foldLine m := by
  intro L
  induction L with
  | nil => intro m; rfl
  | cons l ls ih =>
    intro m
    cases ls with
    | nil =>
      simp only [mapLast, List.foldl_cons, List.foldl_nil]
      simp only [foldLine, parseNumberedLine_pyStripEnd]
    | cons l2 ls2 =>
      simp only [mapLast, List.foldl_cons]
      exact ih (foldLine m l)

theorem insertEntry_fresh (m : List (Nat × PyStr)) (k : Nat) (v : PyStr)
    (h : ∀ p ∈ m, p.1 ≠ k) : insertEntry m k v = m ++ [(k, v)] := by
  simp only [insertEntry]
  rw [if_neg]
  simp only [List.any_eq_true, decide_eq_true_eq, not_exists]
  intro p hp
  exact h p hp.1 hp.2

theorem mem_pyEnumerate :
    ∀ (l : List α) (k : Nat) (p : Nat × α), p ∈ pyEnumerate k l → p.2 ∈ l := by
  intro l
  induction l with
  | nil => intro k p hp; simp [pyEnumerate] at hp
  | cons a t ih =>
    intro k p hp
    simp only [pyEnumerate] at hp
    rcases List.mem_cons.mp hp with h1 | h1
    · rw [h1]; simp
    · exact List.mem_cons_of_mem a (ih (k + 1) p h1)

theorem foldl_encoded_lines :
    ∀ (batch : List Item) (k : Nat) (acc : List (Nat × PyStr)),
      (∀ p ∈ acc, p.1 < k + 1) →
      ((pyEnumerate k batch).map (fun p => encodeLine (p.1 + 1) p.2.text)).foldl
          foldLine acc =
        acc ++ (pyEnumerate k batch).map (fun p => (p.1 + 1, pyStrip p.2.text)) := by
  intro batch
  induction batch with
  | nil => intro k acc _; simp [pyEnumerate]
  | cons it rest ih =>
    intro k acc hacc
    simp only [pyEnumerate, List.map_cons, List.foldl_cons]
    have hstep : foldLine acc (encodeLine (k + 1) it.text) =
        acc ++ [(k + 1, pyStrip it.text)] := by
      simp only [foldLine, parseNumberedLine_encodeLine]
      exact insertEntry_fresh acc (k + 1) (pyStrip it.text)
        (fun p hp => by have := hacc p hp; omega)
    rw [hstep]
    have hacc2 : ∀ p ∈ acc ++ [(k + 1, pyStrip it.text)], p.1 < k + 2 := by
      intro p hp
      rcases List.mem_append.mp hp with h1 | h1
      · have := hacc p h1; omega
      · simp only [List.mem_singleton] at h1
        rw [h1]
        simp
    rw [ih (k + 1) (acc ++ [(k + 1, pyStrip it.text)]) hacc2]
    simp

theorem getNumberedTextMap_encodeBatch (batch : List Item)
    (hnl : ∀ it ∈ batch, ∀ c ∈ it.text, c ≠ '\n') :
    getNumberedTextMap (encodeBatch batch) =
      (pyEnumerate 0 batch).map (fun p => (p.1 + 1, pyStrip p.2.text)) := by
  cases batch with
  | nil => rfl
  | cons it rest =>
    have hmemL : ∀ l ∈ (pyEnumerate 0 (it :: rest)).map
        (fun p => encodeLine (p.1 + 1) p.2.text),
        (∃ c ∈ l, c.isWhitespace = false) ∧ (∀ c ∈ l, c ≠ '\n') := by
      intro l hl
      rcases List.mem_map.mp hl with ⟨p, hp, hpe⟩
      rw [← hpe]
      exact ⟨encodeLine_has_nonws _ _,
        encodeLine_no_newline _ _ (hnl p.2 (mem_pyEnumerate (it :: rest) 0 p hp))⟩
    have hLcons : (pyEnumerate 0 (it :: rest)).map
        (fun p => encodeLine (p.1 + 1) p.2.text) =
        encodeLine (0 + 1) it.text ::
          (pyEnumerate 1 rest).map (fun p => encodeLine (p.1 + 1) p.2.text) := by
      simp [pyEnumerate]
    obtain ⟨c0, r0, hl0, hc0w⟩ := encodeLine_head_not_ws (0 + 1) it.text
    have hstart : pyStripStart (joinLines ((pyEnumerate 0 (it :: rest)).map
        (fun p => encodeLine (p.1 + 1) p.2.text))) =
        joinLines ((pyEnumerate 0 (it :: rest)).map
          (fun p => encodeLine (p.1 + 1) p.2.text)) := by
      rw [hLcons, hl0]
      exact pyStripStart_joinLines c0 r0 _ hc0w
    have hend := pyStripEnd_joinLines ((pyEnumerate 0 (it :: rest)).map
        (fun p => encodeLine (p.1 + 1) p.2.text)) (fun l hl => (hmemL l hl).1)
    have hstrip : pyStrip (joinLines ((pyEnumerate 0 (it :: rest)).map
        (fun p => encodeLine (p.1 + 1) p.2.text))) =
        joinLines (mapLast pyStripEnd ((pyEnumerate 0 (it :: rest)).map
          (fun p => encodeLine (p.1 + 1) p.2.text))) := by
      simp only [pyStrip]
      rw [hstart, hend]
    have hLne : (pyEnumerate 0 (it :: rest)).map
        (fun p => encodeLine (p.1 + 1) p.2.text) ≠ [] := by
      rw [hLcons]; simp
    have hsplit := splitLines_joinLines
      (mapLast pyStripEnd ((pyEnumerate 0 (it :: rest)).map
        (fun p => encodeLine (p.1 + 1) p.2.text)))
      (mapLast_ne_nil pyStripEnd _ hLne)
      (by
        intro l hl c hc
        rcases mem_mapLast pyStripEnd _ l hl with h | ⟨x, hx, hfx⟩
        · exact (hmemL l h).2 c hc
        · rw [hfx] at hc
          exact (hmemL x hx).2 c (mem_pyStripEnd x c hc))
    simp only [getNumberedTextMap, encodeBatch]
    rw [hstrip, hsplit, foldl_foldLine_mapLast]
    exact foldl_encoded_lines (it :: rest) 0 [] (by intro p hp; simp at hp)

/-- C10: for every batch whose unit texts contain no newline, decoding the
encoded numbered list with `_get_numbered_text_map` yields exactly the
ordered, contiguous, total map sending each 1-based position `i+1` to the
stripped text of unit `i` (first conjunct); an embedded newline breaks the
round-trip, witnessed by a concrete one-unit batch (second conjunct). -/
theorem c10_codec_round_trip (batch : List Item)
    (hnl : ∀ it ∈ batch, ∀ c ∈ it.text, c ≠ '\n') :
    getNumberedTextMap (encodeBatch batch) =
      (pyEnumerate 0 batch).map (fun p => (p.1 + 1, pyStrip p.2.text)) ∧
    getNumberedTextMap (encodeBatch newlineBatch) ≠
      (pyEnumerate 0 newlineBatch).map (fun p => (p.1 + 1, pyStrip p.2.text)) :=
  ⟨getNumberedTextMap_encodeBatch batch hnl, by decide⟩

/-- C10 witness: a concrete five-unit batch without newlines round-trips. -/
theorem c10_codec_round_trip_witness :
    (∀ it ∈ batch5, ∀ c ∈ it.text, c ≠ '\n') ∧
    getNumberedTextMap (encodeBatch batch5) =
      (pyEnumerate 0 batch5).map (fun p => (p.1 + 1, pyStrip p.2.text)) :=
  ⟨by decide, (c10_codec_round_trip batch5 (by decide)).1⟩

end LingoSub
